/-
Verification of the asynchronous Berger-Rigoutsos (BR) clustering engine
of the SAMRAI repository, as declared in
src/source/SAMRAI/mesh/BergerRigoutsosNode.h.

The repository ships only the header of the engine; member-function
bodies that live in BergerRigoutsosNode.C are absent.  Functions whose
bodies appear inline in the header are embedded directly from that
source.  Behaviour that only the header documentation and the design
specification describe is modelled explicitly; every such definition
carries a doc comment starting with "Modelled from the spec:".
-/
import Mathlib

namespace SAMRAI

/-! ## Box acceptance states (BergerRigoutsosNode.h lines 836-845)

The C++ enum `BoxAcceptance` with its explicit integer values. -/

inductive BoxAcceptance where
  | undetermined
  | hasnotag_by_owner
  | rejected_by_calculation
  | accepted_by_calculation
  | rejected_by_owner
  | accepted_by_owner
  | rejected_by_recombination
  | accepted_by_recombination
  | rejected_by_dropout_bcast
  | accepted_by_dropout_bcast
  deriving DecidableEq, Fintype, Repr

/-- The integer value each enumerator carries in the C++ source. -/
def BoxAcceptance.toInt : BoxAcceptance → Int
  | .undetermined => -2
  | .hasnotag_by_owner => -1
  | .rejected_by_calculation => 0
  | .accepted_by_calculation => 1
  | .rejected_by_owner => 2
  | .accepted_by_owner => 3
  | .rejected_by_recombination => 4
  | .accepted_by_recombination => 5
  | .rejected_by_dropout_bcast => 6
  | .accepted_by_dropout_bcast => 7

/-- `boxAccepted()` from BergerRigoutsosNode.h lines 1028-1032:
`return bool(d_box_acceptance >= 0 && d_box_acceptance % 2);`. -/
def boxAccepted (v : BoxAcceptance) : Bool :=
  decide (0 ≤ v.toInt) && decide (v.toInt % 2 ≠ 0)

/-- `boxRejected()` from BergerRigoutsosNode.h lines 1034-1038:
`return bool(d_box_acceptance >= 0 && d_box_acceptance % 2 == 0);`. -/
def boxRejected (v : BoxAcceptance) : Bool :=
  decide (0 ≤ v.toInt) && decide (v.toInt % 2 = 0)

/-- `boxHasNoTag()` from BergerRigoutsosNode.h lines 1040-1044:
`return bool(d_box_acceptance == -1);`. -/
def boxHasNoTag (v : BoxAcceptance) : Bool :=
  decide (v.toInt = -1)

/-! ## Communication tree degree (BergerRigoutsosNode.h lines 958-969)

```
int tree_deg = 2;
int shifted_size = group_size >> 3;
while (shifted_size > 0) { shifted_size >>= 3; ++tree_deg; }
return tree_deg;
```
-/

/-- Number of iterations of the `while (shifted_size > 0)` loop,
starting from a given `shifted_size`; each iteration shifts right
by three bits. -/
def shiftLoopCount (k : ℕ) : ℕ :=
  if k = 0 then 0 else 1 + shiftLoopCount (k / 8)
  decreasing_by exact Nat.div_lt_self (Nat.pos_of_ne_zero (by assumption)) (by norm_num)

/-- `computeCommunicationTreeDegree` from BergerRigoutsosNode.h
lines 958-969, with `>> 3` rendered as division by 8. -/
def computeCommunicationTreeDegree (group_size : ℕ) : ℕ :=
  2 + shiftLoopCount (group_size / 8)

/-! ## Average continuation count (BergerRigoutsosNode.h lines 346-355)

`getAvgNumberOfCont` guards the division by the completed-node count.
The two counters are C ints; the quotient is modelled in ℚ. -/

structure ContCounters where
  d_num_conts_to_complete : ℤ
  d_num_nodes_completed : ℤ

/-- `getAvgNumberOfCont()` from BergerRigoutsosNode.h lines 346-355:
`if (d_num_nodes_completed > 0) return (double)d_num_conts_to_complete
/ d_num_nodes_completed; return 0;`. -/
def getAvgNumberOfCont (c : ContCounters) : ℚ :=
  if 0 < c.d_num_nodes_completed then
    (c.d_num_conts_to_complete : ℚ) / (c.d_num_nodes_completed : ℚ)
  else 0

/-! ## gatherGroupingCriteria_check (BergerRigoutsosNode.h lines 876-888)

```
if (d_group.size() == 1) { return true; }
d_comm_group->checkGather();
return d_comm_group->isDone();
```
The communication group is abstract here: `checkGather` advances its
state, `isDone` reports completion.  The function returns the boolean
result together with the (possibly advanced) communication-group
state. -/

def gatherGroupingCriteria_check {γ : Type} (checkGather : γ → γ)
    (isDone : γ → Bool) (d_group : List ℤ) (comm : γ) : Bool × γ :=
  if d_group.length = 1 then (true, comm)
  else
    let comm' := checkGather comm
    (isDone comm', comm')

/-! ## Boxes and tagged cells

`hier::Box` (used throughout BergerRigoutsosNode.h) is an axis-aligned
integer-index rectangle: a lower and an upper corner in `d` dimensions.
A cell is an integer index vector; a box contains the cells between its
corners, inclusive.  The tag input is the finite set of tagged cells. -/

/-- An integer index vector in `d` dimensions. -/
abbrev Cell (d : ℕ) := Fin d → ℤ

/-- An axis-aligned integer-index box: `hier::Box` without the block id
(clustering runs independently per block). -/
structure BRBox (d : ℕ) where
  lo : Cell d
  hi : Cell d
  deriving DecidableEq

/-- Cell membership in a box (both corners inclusive). -/
def memBox {d : ℕ} (x : Cell d) (b : BRBox d) : Prop :=
  ∀ i, b.lo i ≤ x i ∧ x i ≤ b.hi i

instance {d : ℕ} (x : Cell d) (b : BRBox d) : Decidable (memBox x b) :=
  decidable_of_iff (∀ i, b.lo i ≤ x i ∧ x i ≤ b.hi i) Iff.rfl

/-- The tagged cells lying inside a box. -/
def tagsIn {d : ℕ} (tags : Finset (Cell d)) (b : BRBox d) : Finset (Cell d) :=
  tags.filter (fun x => memBox x b)

/-- `hier::Box::numberCells(i)`: the cell count of the box along axis
`i` (negative when the box is empty along that axis). -/
def numberCells {d : ℕ} (b : BRBox d) (i : Fin d) : ℤ :=
  b.hi i + 1 - b.lo i

/-- Sum of per-axis cell counts; the termination measure for the BR
recursion. -/
def boxMeasure {d : ℕ} (b : BRBox d) : ℕ :=
  ∑ i, (numberCells b i).toNat

/-- `b₁` is contained in `b₂` (as cell sets, cornerwise). -/
def BoxLE {d : ℕ} (b₁ b₂ : BRBox d) : Prop :=
  ∀ i, b₂.lo i ≤ b₁.lo i ∧ b₁.hi i ≤ b₂.hi i

/-- Modelled from the spec: the owner "shrinks `box` to the minimal
bounding box of tags (using histogram zero-margins)"
(`computeMinimalBoundingBoxForTags`, body in BergerRigoutsosNode.C,
absent from the repository).  The minimal bounding box of the tagged
cells inside `b`. -/
def shrinkBox {d : ℕ} (tags : Finset (Cell d)) (b : BRBox d)
    (h : (tagsIn tags b).Nonempty) : BRBox d :=
  ⟨fun i => (tagsIn tags b).inf' h (fun x => x i),
   fun i => (tagsIn tags b).sup' h (fun x => x i)⟩

/-- The lower part of a box split along axis `a` at plane `c` (cells
with `a`-coordinate `≤ c`). -/
def leftHalf {d : ℕ} (b : BRBox d) (a : Fin d) (c : ℤ) : BRBox d :=
  ⟨b.lo, Function.update b.hi a c⟩

/-- The upper part of a box split along axis `a` at plane `c` (cells
with `a`-coordinate `≥ c + 1`). -/
def rightHalf {d : ℕ} (b : BRBox d) (a : Fin d) (c : ℤ) : BRBox d :=
  ⟨Function.update b.lo a (c + 1), b.hi⟩

/-- The bounding box of the union of two boxes (used by
recombination). -/
def boundingUnion {d : ℕ} (b₁ b₂ : BRBox d) : BRBox d :=
  ⟨fun i => min (b₁.lo i) (b₂.lo i), fun i => max (b₁.hi i) (b₂.hi i)⟩

/-! ## Box acceptance decision (`acceptOrSplitBox`) -/

/-- Efficiency of a candidate box: tag count over cell volume. -/
def boxEfficiency {d : ℕ} (numTags : ℕ) (b : BRBox d) : ℚ :=
  (numTags : ℚ) / ∏ i, (numberCells b i : ℚ)

/-- The box fits inside `max_box_size` in every dimension. -/
def boxFitsInMaxSize {d : ℕ} (b : BRBox d) (max_box_size : Fin d → ℤ) : Bool :=
  decide (∀ i, numberCells b i ≤ max_box_size i)

/-- The box is already at the minimum box size in every dimension. -/
def boxAtMinSize {d : ℕ} (b : BRBox d) (min_box : Fin d → ℤ) : Bool :=
  decide (∀ i, numberCells b i ≤ min_box i)

/-- Modelled from the spec: the acceptance decision of
`acceptOrSplitBox` (body in BergerRigoutsosNode.C, absent from the
repository).  Per the spec, the box is accepted when
`num_tags / box.volume ≥ efficiency_tol` and the box fits inside
`max_box_size`; per the spec's degenerate-case rule, a box already at
the minimum box size in every dimension is accepted even when it fails
the efficiency test ("box hits `min_box` and still fails efficiency"
is not an error: "accept the minimum box"; the efficiency floor holds
"except when `b` is already at `min_box` in every dimension"). -/
def acceptOrSplitBox {d : ℕ} (numTags : ℕ) (b : BRBox d) (efficiency_tol : ℚ)
    (max_box_size min_box : Fin d → ℤ) : Bool :=
  (decide (efficiency_tol ≤ boxEfficiency numTags b) &&
    boxFitsInMaxSize b max_box_size) || boxAtMinSize b min_box

/-- Modelled from the spec: the recombination test (body in
BergerRigoutsosNode.C, absent from the repository).  The union box of
the two accepted children must respect `max_box_size` and the combined
efficiency must be within `combine_tol` of the children's individual
efficiencies. -/
def recombineOK {d : ℕ} (tags : Finset (Cell d)) (max_box_size : Fin d → ℤ)
    (combine_tol : ℚ) (bl br : BRBox d) : Bool :=
  boxFitsInMaxSize (boundingUnion bl br) max_box_size &&
    decide (min (boxEfficiency (tagsIn tags bl).card bl)
        (boxEfficiency (tagsIn tags br).card br) - combine_tol ≤
      boxEfficiency (tagsIn tags (boundingUnion bl br)).card
        (boundingUnion bl br))

/-! ## The Berger-Rigoutsos recursion

Modelled from the spec: the dendogram recursion driven by
`continueAlgorithm` (bodies in BergerRigoutsosNode.C, absent from the
repository).  A node with no tags yields nothing (`hasnotag`); else
the box is shrunk to the minimal bounding box of its tags, then either
accepted or split at a cut plane chosen by the cut-selection procedure
(zero-swath, inflection, or midpoint bisection — abstracted here as
the `cutter` argument); the two children are clustered recursively
and, when both yield a single accepted box, recombination may replace
them with their bounding union.  A degenerate cut proposal that is not
strictly interior to the shrunken box cannot split it, so the box is
accepted (the spec's minimum-box degenerate case). -/
def clusterFuel {d : ℕ} (efficiency_tol combine_tol : ℚ)
    (max_box_size min_box : Fin d → ℤ)
    (cutter : BRBox d → Finset (Cell d) → Fin d × ℤ)
    (tags : Finset (Cell d)) : ℕ → BRBox d → List (BRBox d)
  | 0, _ => []
  | fuel + 1, b =>
    if h : (tagsIn tags b).Nonempty then
      if acceptOrSplitBox (tagsIn tags (shrinkBox tags b h)).card
          (shrinkBox tags b h) efficiency_tol max_box_size min_box then
        [shrinkBox tags b h]
      else
        match cutter (shrinkBox tags b h) (tagsIn tags (shrinkBox tags b h)) with
        | (a, c) =>
          if (shrinkBox tags b h).lo a ≤ c ∧
              c < (shrinkBox tags b h).hi a then
            match clusterFuel efficiency_tol combine_tol max_box_size min_box
                cutter tags fuel (leftHalf (shrinkBox tags b h) a c),
              clusterFuel efficiency_tol combine_tol max_box_size min_box
                cutter tags fuel (rightHalf (shrinkBox tags b h) a c) with
            | [bl], [br] =>
              if recombineOK tags max_box_size combine_tol bl br then
                [boundingUnion bl br]
              else [bl, br]
            | l, r => l ++ r
          else [shrinkBox tags b h]
    else []

/-- The BR recursion applied to one root box.  One fuel unit is spent
per recursion level; an interior cut strictly shrinks `boxMeasure`, so
`boxMeasure b + 1` units never run out (`clusterFuel_clusterOK`). -/
def cluster {d : ℕ} (efficiency_tol combine_tol : ℚ)
    (max_box_size min_box : Fin d → ℤ)
    (cutter : BRBox d → Finset (Cell d) → Fin d × ℤ)
    (tags : Finset (Cell d)) (b : BRBox d) : List (BRBox d) :=
  clusterFuel efficiency_tol combine_tol max_box_size min_box cutter tags
    (boxMeasure b + 1) b

/-- The tagged cells covered by a list of boxes. -/
def unionTags {d : ℕ} (tags : Finset (Cell d)) (L : List (BRBox d)) :
    Finset (Cell d) :=
  L.foldr (fun bx acc => tagsIn tags bx ∪ acc) ∅

/-- Soundness package for a clustering result on box `b`: every output
box lies inside `b`, the output boxes cover exactly the tagged cells
of `b`, and no two output boxes share a tagged cell. -/
def ClusterOK {d : ℕ} (tags : Finset (Cell d)) (b : BRBox d)
    (L : List (BRBox d)) : Prop :=
  (∀ bx ∈ L, BoxLE bx b) ∧
  unionTags tags L = tagsIn tags b ∧
  List.Pairwise (fun x y => Disjoint (tagsIn tags x) (tagsIn tags y)) L

/-! ## Driver and advance modes -/

/-- The `AlgoAdvanceMode` enum from BergerRigoutsosNode.h lines
93-95. -/
inductive AlgoAdvanceMode where
  | ADVANCE_ANY
  | ADVANCE_SOME
  | SYNCHRONOUS
  deriving DecidableEq, Repr

/-- Modelled from the spec: the clustering driver (BergerRigoutsos.C /
BergerRigoutsosNode.C, absent from the repository) pops ready
dendogram roots off the relaunch queue and runs each to completion;
the multiset of accepted boxes over a given processing order of the
root boxes. -/
def runClustering {d : ℕ} (efficiency_tol combine_tol : ℚ)
    (max_box_size min_box : Fin d → ℤ)
    (cutter : BRBox d → Finset (Cell d) → Fin d × ℤ)
    (tags : Finset (Cell d)) (procOrder : List (BRBox d)) :
    Multiset (BRBox d) :=
  ↑(procOrder.flatMap
    (cluster efficiency_tol combine_tol max_box_size min_box cutter tags))

/-- Modelled from the spec: the processing orders an advance mode can
produce.  `SYNCHRONOUS` completes each communication stage in turn, so
the roots are processed in queue order; `ADVANCE_ANY` and
`ADVANCE_SOME` react to message completion, whose order is
nondeterministic, so any permutation of the roots may occur. -/
def ValidOrder {d : ℕ} (mode : AlgoAdvanceMode) (roots order : List (BRBox d)) :
    Prop :=
  match mode with
  | .SYNCHRONOUS => order = roots
  | .ADVANCE_ANY => List.Perm order roots
  | .ADVANCE_SOME => List.Perm order roots

/-! ## Wait phases (BergerRigoutsosNode.h lines 756-765) -/

/-- The C++ enum `WaitPhase`, all ten enumerators in declaration
order. -/
inductive WaitPhase where
  | for_data_only
  | to_be_launched
  | reduce_histogram
  | bcast_acceptability
  | gather_grouping_criteria
  | bcast_child_groups
  | run_children
  | bcast_to_dropouts
  | completed
  | deallocated
  deriving DecidableEq, Fintype, Repr

/-- Position of a phase in the enum's declaration order. -/
def phaseIndex : WaitPhase → ℕ
  | .for_data_only => 0
  | .to_be_launched => 1
  | .reduce_histogram => 2
  | .bcast_acceptability => 3
  | .gather_grouping_criteria => 4
  | .bcast_child_groups => 5
  | .run_children => 6
  | .bcast_to_dropouts => 7
  | .completed => 8
  | .deallocated => 9

/-- The eight phase values named by the claim. -/
def claimPhases : List WaitPhase :=
  [.to_be_launched, .reduce_histogram, .bcast_acceptability,
   .gather_grouping_criteria, .bcast_child_groups, .run_children,
   .bcast_to_dropouts, .completed]

/-- The observations one `continueAlgorithm` call reacts to: whether
the pending collective finished, whether the reduced histogram was
empty, the owner's acceptance decision, whether this participant is in
a child group, and whether the children completed. -/
structure StepEvent where
  commDone : Bool
  numTagsZero : Bool
  accepted : Bool
  inChildGroup : Bool
  childrenDone : Bool
  deriving DecidableEq, Fintype, Repr

/-- Modelled from the spec: the wait-phase transition one
`continueAlgorithm` call performs (body in BergerRigoutsosNode.C,
absent from the repository), following the phase sequence of the
spec's state machine.  An incomplete collective leaves the phase
unchanged; `for_data_only` nodes and `deallocated` nodes are never
executed. -/
def waitPhaseStep (p : WaitPhase) (e : StepEvent) : WaitPhase :=
  match p with
  | .to_be_launched => .reduce_histogram
  | .reduce_histogram =>
    if !e.commDone then .reduce_histogram
    else if e.numTagsZero then .completed
    else .bcast_acceptability
  | .bcast_acceptability =>
    if !e.commDone then .bcast_acceptability
    else if e.accepted then .completed
    else .gather_grouping_criteria
  | .gather_grouping_criteria =>
    if !e.commDone then .gather_grouping_criteria
    else .bcast_child_groups
  | .bcast_child_groups =>
    if !e.commDone then .bcast_child_groups
    else if e.inChildGroup then .run_children
    else .bcast_to_dropouts
  | .run_children =>
    if !e.childrenDone then .run_children
    else .bcast_to_dropouts
  | .bcast_to_dropouts =>
    if !e.commDone then .bcast_to_dropouts
    else .completed
  | p => p

/-! ## Grouping-criteria gather message (C7) -/

/-- Modelled from the spec: the per-rank grouping-criteria message
`[overlap_L, overlap_R, rank, node_count]` assembled in
`gatherGroupingCriteria_start` (body in BergerRigoutsosNode.C, absent
from the repository). -/
def groupingCriteriaQuad (overlapL overlapR nodeCount : ℤ → ℤ) (rank : ℤ) :
    List ℤ :=
  [overlapL rank, overlapR rank, rank, nodeCount rank]

/-- Modelled from the spec: the owner's received gather buffer, the
concatenation of every group rank's quadruple (the header asserts
`d_recv_msg.size() == 4 * d_group.size()` as the precondition of
`formChildGroups`). -/
def gatheredGroupingCriteria (overlapL overlapR nodeCount : ℤ → ℤ)
    (group : List ℤ) : List ℤ :=
  group.flatMap (groupingCriteriaQuad overlapL overlapR nodeCount)

/-! ## Binary position index (C8) -/

/-- The largest value representable by the C `int` holding `d_pos`. -/
def intMax : ℤ := 2 ^ 31 - 1

/-- Modelled from the spec: the `d_pos` computation of the non-root
constructor (body in BergerRigoutsosNode.C, absent from the
repository), per the documentation of `d_pos` in BergerRigoutsosNode.h
lines 1086-1102: the left child (`childNumber = 0`) gets `2 * p`, the
right child (`childNumber = 1`) gets `2 * p + 1`, and when the
position is too big to be represented by an integer it is set to −1
for a left child and −2 for a right child. -/
def childPos (parentPos childNumber : ℤ) : ℤ :=
  if 2 * parentPos + childNumber ≤ intMax then 2 * parentPos + childNumber
  else -1 - childNumber

end SAMRAI

namespace SAMRAI

/-! ## Helper lemmas -/

/-- The loop in `computeCommunicationTreeDegree` counts base-8 digits:
for `n ≥ 1`, the number of iterations starting from `n / 8` is
`Nat.log 8 n`. -/
theorem shiftLoopCount_div_eight :
    ∀ n : ℕ, 1 ≤ n → shiftLoopCount (n / 8) = Nat.log 8 n := by
  intro n
  induction n using Nat.strong_induction_on with
  | _ n ih =>
    intro h
    by_cases h8 : n < 8
    · rw [Nat.div_eq_of_lt h8, shiftLoopCount]
      simp only [if_pos rfl]
      exact (Nat.log_eq_zero_iff.mpr (Or.inl h8)).symm
    · push_neg at h8
      have hd : 1 ≤ n / 8 := (Nat.one_le_div_iff (by norm_num)).mpr h8
      rw [shiftLoopCount, if_neg (by omega),
        ih (n / 8) (Nat.div_lt_self (by omega) (by norm_num)) hd,
        Nat.log_div_base]
      have hp : 0 < Nat.log 8 n := Nat.log_pos (by norm_num) h8
      omega

/-- Box containment is reflexive. -/
theorem BoxLE_refl {d : ℕ} (b : BRBox d) : BoxLE b b :=
  fun _ => ⟨le_refl _, le_refl _⟩

/-- Box containment is transitive. -/
theorem BoxLE_trans {d : ℕ} {b₁ b₂ b₃ : BRBox d} (h1 : BoxLE b₁ b₂)
    (h2 : BoxLE b₂ b₃) : BoxLE b₁ b₃ :=
  fun i => ⟨le_trans (h2 i).1 (h1 i).1, le_trans (h1 i).2 (h2 i).2⟩

/-- A smaller box holds fewer tagged cells. -/
theorem tagsIn_mono {d : ℕ} (tags : Finset (Cell d)) {b₁ b₂ : BRBox d}
    (h : BoxLE b₁ b₂) : tagsIn tags b₁ ⊆ tagsIn tags b₂ := by
  intro x hx
  rw [tagsIn, Finset.mem_filter] at *
  exact ⟨hx.1, fun i =>
    ⟨le_trans (h i).1 (hx.2 i).1, le_trans (hx.2 i).2 (h i).2⟩⟩

/-- The shrunken box is contained in the original box. -/
theorem shrinkBox_BoxLE {d : ℕ} (tags : Finset (Cell d)) (b : BRBox d)
    (h : (tagsIn tags b).Nonempty) : BoxLE (shrinkBox tags b h) b := by
  intro i
  constructor
  · exact Finset.le_inf' h _ (fun x hx => ((Finset.mem_filter.mp hx).2 i).1)
  · exact Finset.sup'_le h _ (fun x hx => ((Finset.mem_filter.mp hx).2 i).2)

/-- Shrinking to the minimal bounding box of the tags keeps exactly the
tagged cells of the original box. -/
theorem tagsIn_shrinkBox {d : ℕ} (tags : Finset (Cell d)) (b : BRBox d)
    (h : (tagsIn tags b).Nonempty) :
    tagsIn tags (shrinkBox tags b h) = tagsIn tags b := by
  apply Finset.Subset.antisymm
  · exact tagsIn_mono tags (shrinkBox_BoxLE tags b h)
  · intro x hx
    rw [tagsIn, Finset.mem_filter]
    refine ⟨(Finset.mem_filter.mp hx).1, fun i => ?_⟩
    exact ⟨Finset.inf'_le (fun y => y i) hx, Finset.le_sup' (fun y => y i) hx⟩

/-- Membership in the lower split half. -/
theorem mem_leftHalf {d : ℕ} (x : Cell d) (b : BRBox d) (a : Fin d) (c : ℤ)
    (h2 : c ≤ b.hi a) : memBox x (leftHalf b a c) ↔ memBox x b ∧ x a ≤ c := by
  simp only [memBox, leftHalf, Function.update_apply]
  constructor
  · intro H
    have ha := (H a).2
    rw [if_pos rfl] at ha
    refine ⟨fun i => ⟨(H i).1, ?_⟩, ha⟩
    have := (H i).2
    split_ifs at this with hia
    · subst hia
      exact le_trans this h2
    · exact this
  · intro H i
    refine ⟨(H.1 i).1, ?_⟩
    split_ifs with hia
    · subst hia
      exact H.2
    · exact (H.1 i).2

/-- Membership in the upper split half. -/
theorem mem_rightHalf {d : ℕ} (x : Cell d) (b : BRBox d) (a : Fin d) (c : ℤ)
    (h1 : b.lo a ≤ c) : memBox x (rightHalf b a c) ↔ memBox x b ∧ c < x a := by
  simp only [memBox, rightHalf, Function.update_apply]
  constructor
  · intro H
    have ha := (H a).1
    rw [if_pos rfl] at ha
    refine ⟨fun i => ⟨?_, (H i).2⟩, by omega⟩
    have := (H i).1
    split_ifs at this with hia
    · subst hia
      omega
    · exact this
  · intro H i
    refine ⟨?_, (H.1 i).2⟩
    split_ifs with hia
    · subst hia
      have := H.2
      omega
    · exact (H.1 i).1

/-- The lower half is contained in the box. -/
theorem leftHalf_BoxLE {d : ℕ} (b : BRBox d) (a : Fin d) (c : ℤ)
    (h2 : c ≤ b.hi a) : BoxLE (leftHalf b a c) b := by
  intro i
  refine ⟨le_refl _, ?_⟩
  show Function.update b.hi a c i ≤ b.hi i
  rw [Function.update_apply]
  split_ifs with hia
  · subst hia
    exact h2
  · exact le_refl _

/-- The upper half is contained in the box. -/
theorem rightHalf_BoxLE {d : ℕ} (b : BRBox d) (a : Fin d) (c : ℤ)
    (h1 : b.lo a ≤ c) : BoxLE (rightHalf b a c) b := by
  intro i
  refine ⟨?_, le_refl _⟩
  show b.lo i ≤ Function.update b.lo a (c + 1) i
  rw [Function.update_apply]
  split_ifs with hia
  · subst hia
    omega
  · exact le_refl _

/-- An interior split partitions the tagged cells of a box: the two
halves cover them all and share none. -/
theorem tagsIn_split {d : ℕ} (tags : Finset (Cell d)) (b : BRBox d) (a : Fin d)
    (c : ℤ) (h1 : b.lo a ≤ c) (h2 : c < b.hi a) :
    tagsIn tags (leftHalf b a c) ∪ tagsIn tags (rightHalf b a c) =
      tagsIn tags b ∧
    Disjoint (tagsIn tags (leftHalf b a c)) (tagsIn tags (rightHalf b a c)) := by
  constructor
  · ext y
    simp only [Finset.mem_union, tagsIn, Finset.mem_filter,
      mem_leftHalf y b a c (le_of_lt h2), mem_rightHalf y b a c h1]
    constructor
    · rintro (⟨hy, hm, _⟩ | ⟨hy, hm, _⟩) <;> exact ⟨hy, hm⟩
    · rintro ⟨hy, hm⟩
      by_cases hy2 : y a ≤ c
      · exact Or.inl ⟨hy, hm, hy2⟩
      · exact Or.inr ⟨hy, hm, by omega⟩
  · rw [Finset.disjoint_left]
    intro y hyl hyr
    rw [tagsIn, Finset.mem_filter, mem_leftHalf y b a c (le_of_lt h2)] at hyl
    rw [tagsIn, Finset.mem_filter, mem_rightHalf y b a c h1] at hyr
    omega

/-- `unionTags` distributes over list append. -/
theorem unionTags_append {d : ℕ} (tags : Finset (Cell d))
    (L R : List (BRBox d)) :
    unionTags tags (L ++ R) = unionTags tags L ∪ unionTags tags R := by
  induction L with
  | nil => simp [unionTags]
  | cons bx L ihl =>
    simp only [List.cons_append, unionTags, List.foldr_cons] at *
    rw [ihl, Finset.union_assoc]

/-- A set disjoint from every box's tags is disjoint from their
union. -/
theorem disjoint_unionTags {d : ℕ} (tags : Finset (Cell d))
    (s : Finset (Cell d)) (L : List (BRBox d))
    (h : ∀ y ∈ L, Disjoint s (tagsIn tags y)) :
    Disjoint s (unionTags tags L) := by
  induction L with
  | nil => simp [unionTags]
  | cons bx L ihl =>
    simp only [unionTags, List.foldr_cons]
    rw [Finset.disjoint_union_right]
    exact ⟨h bx (by simp), ihl (fun y hy => h y (by simp [hy]))⟩

/-- For pairwise tag-disjoint boxes, per-box tag counts add up to the
tag count of the union. -/
theorem sum_card_tagsIn {d : ℕ} (tags : Finset (Cell d)) (L : List (BRBox d))
    (hpw : List.Pairwise (fun x y => Disjoint (tagsIn tags x) (tagsIn tags y)) L) :
    (L.map fun bx => (tagsIn tags bx).card).sum = (unionTags tags L).card := by
  induction L with
  | nil => simp [unionTags]
  | cons bx L ihl =>
    rcases List.pairwise_cons.mp hpw with ⟨hd, htl⟩
    have hu : unionTags tags (bx :: L) = tagsIn tags bx ∪ unionTags tags L := rfl
    rw [List.map_cons, List.sum_cons, hu,
      Finset.card_union_of_disjoint (disjoint_unionTags tags _ L hd), ihl htl]

/-- `ClusterOK` transfers from the shrunken box to the original box. -/
theorem clusterOK_mono {d : ℕ} (tags : Finset (Cell d)) {sb b : BRBox d}
    {L : List (BRBox d)} (hok : ClusterOK tags sb L) (hle : BoxLE sb b)
    (heq : tagsIn tags sb = tagsIn tags b) : ClusterOK tags b L := by
  obtain ⟨hsub, hun, hpw⟩ := hok
  exact ⟨fun bx hbx => BoxLE_trans (hsub bx hbx) hle, by rw [hun, heq], hpw⟩

/-- `ClusterOK` for a single box covering all the tags. -/
theorem clusterOK_single {d : ℕ} (tags : Finset (Cell d)) (sb b : BRBox d)
    (hle : BoxLE sb b) (heq : tagsIn tags sb = tagsIn tags b) :
    ClusterOK tags b [sb] := by
  refine ⟨?_, ?_, ?_⟩
  · intro bx hbx
    rw [List.mem_singleton] at hbx
    subst hbx
    exact hle
  · simp [unionTags, heq]
  · simp

/-- `ClusterOK` for a tag-empty box. -/
theorem clusterOK_nil {d : ℕ} (tags : Finset (Cell d)) (b : BRBox d)
    (h : tagsIn tags b = ∅) : ClusterOK tags b [] :=
  ⟨by simp, by simp [unionTags, h], by simp⟩

/-- `ClusterOK` results on two disjoint, covering sub-boxes combine by
concatenation. -/
theorem clusterOK_append {d : ℕ} (tags : Finset (Cell d)) {pL pR P : BRBox d}
    {L R : List (BRBox d)} (hL : ClusterOK tags pL L) (hR : ClusterOK tags pR R)
    (hPL : BoxLE pL P) (hPR : BoxLE pR P)
    (hdisj : Disjoint (tagsIn tags pL) (tagsIn tags pR))
    (hcover : tagsIn tags pL ∪ tagsIn tags pR = tagsIn tags P) :
    ClusterOK tags P (L ++ R) := by
  obtain ⟨hLsub, hLun, hLpw⟩ := hL
  obtain ⟨hRsub, hRun, hRpw⟩ := hR
  refine ⟨?_, ?_, ?_⟩
  · intro bx hbx
    rcases List.mem_append.mp hbx with hbx | hbx
    · exact BoxLE_trans (hLsub bx hbx) hPL
    · exact BoxLE_trans (hRsub bx hbx) hPR
  · rw [unionTags_append, hLun, hRun, hcover]
  · rw [List.pairwise_append]
    refine ⟨hLpw, hRpw, ?_⟩
    intro x hx y hy
    exact hdisj.mono (tagsIn_mono tags (hLsub x hx))
      (tagsIn_mono tags (hRsub y hy))

/-- `ClusterOK` survives recombination: when each child produced a
single box, the bounding union of the two boxes again covers exactly
the parent's tags. -/
theorem clusterOK_recombine {d : ℕ} (tags : Finset (Cell d))
    {pL pR P bl br : BRBox d} (hL : ClusterOK tags pL [bl])
    (hR : ClusterOK tags pR [br]) (hPL : BoxLE pL P) (hPR : BoxLE pR P)
    (hcover : tagsIn tags pL ∪ tagsIn tags pR = tagsIn tags P) :
    ClusterOK tags P [boundingUnion bl br] := by
  obtain ⟨hLsub, hLun, _⟩ := hL
  obtain ⟨hRsub, hRun, _⟩ := hR
  have hbl : BoxLE bl P := BoxLE_trans (hLsub bl (by simp)) hPL
  have hbr : BoxLE br P := BoxLE_trans (hRsub br (by simp)) hPR
  have hblu : BoxLE bl (boundingUnion bl br) :=
    fun i => ⟨min_le_left _ _, le_max_left _ _⟩
  have hbru : BoxLE br (boundingUnion bl br) :=
    fun i => ⟨min_le_right _ _, le_max_right _ _⟩
  have huP : BoxLE (boundingUnion bl br) P := fun i =>
    ⟨le_min (hbl i).1 (hbr i).1, max_le (hbl i).2 (hbr i).2⟩
  have hblt : tagsIn tags bl = tagsIn tags pL := by
    simpa [unionTags] using hLun
  have hbrt : tagsIn tags br = tagsIn tags pR := by
    simpa [unionTags] using hRun
  have htu : tagsIn tags (boundingUnion bl br) = tagsIn tags P := by
    apply Finset.Subset.antisymm
    · exact tagsIn_mono tags huP
    · rw [← hcover, ← hblt, ← hbrt]
      exact Finset.union_subset (tagsIn_mono tags hblu) (tagsIn_mono tags hbru)
  exact clusterOK_single tags _ P huP htu

/-- Containment implies the measure does not grow. -/
theorem boxMeasure_mono {d : ℕ} {b₁ b₂ : BRBox d} (h : BoxLE b₁ b₂) :
    boxMeasure b₁ ≤ boxMeasure b₂ := by
  refine Finset.sum_le_sum ?_
  intro i _
  have := h i
  simp only [numberCells]
  omega

/-- An interior cut strictly shrinks the lower half's measure. -/
theorem boxMeasure_leftHalf_lt {d : ℕ} (b : BRBox d) (a : Fin d) (c : ℤ)
    (h1 : b.lo a ≤ c) (h2 : c < b.hi a) :
    boxMeasure (leftHalf b a c) < boxMeasure b := by
  refine Finset.sum_lt_sum (fun i _ => ?_) ⟨a, Finset.mem_univ _, ?_⟩
  · simp only [numberCells, leftHalf, Function.update_apply]
    split_ifs with hia
    · rw [hia]
      omega
    · omega
  · simp only [numberCells, leftHalf, Function.update_same]
    omega

/-- An interior cut strictly shrinks the upper half's measure. -/
theorem boxMeasure_rightHalf_lt {d : ℕ} (b : BRBox d) (a : Fin d) (c : ℤ)
    (h1 : b.lo a ≤ c) (h2 : c < b.hi a) :
    boxMeasure (rightHalf b a c) < boxMeasure b := by
  refine Finset.sum_lt_sum (fun i _ => ?_) ⟨a, Finset.mem_univ _, ?_⟩
  · simp only [numberCells, rightHalf, Function.update_apply]
    split_ifs with hia
    · rw [hia]
      omega
    · omega
  · simp only [numberCells, rightHalf, Function.update_same]
    omega

/-- Every clustering result is sound: the output boxes lie inside the
input box, cover exactly its tagged cells, and are pairwise
tag-disjoint. -/
theorem clusterFuel_clusterOK {d : ℕ} (efficiency_tol combine_tol : ℚ)
    (max_box_size min_box : Fin d → ℤ)
    (cutter : BRBox d → Finset (Cell d) → Fin d × ℤ)
    (tags : Finset (Cell d)) :
    ∀ (fuel : ℕ) (b : BRBox d), boxMeasure b < fuel →
      ClusterOK tags b
        (clusterFuel efficiency_tol combine_tol max_box_size min_box cutter
          tags fuel b) := by
  intro fuel
  induction fuel with
  | zero => intro b hb; omega
  | succ fuel ihf =>
    intro b hb
    rw [clusterFuel]
    split
    case isFalse h =>
      exact clusterOK_nil tags b (Finset.not_nonempty_iff_eq_empty.mp h)
    case isTrue h =>
    have hshle := shrinkBox_BoxLE tags b h
    have hsheq := tagsIn_shrinkBox tags b h
    split
    case isTrue hacc =>
      exact clusterOK_single tags _ b hshle hsheq
    case isFalse hacc =>
    split
    next a c heqcut =>
    split
    case isFalse hc =>
      exact clusterOK_single tags _ b hshle hsheq
    case isTrue hc =>
    have hmsb := boxMeasure_mono hshle
    have hmL : boxMeasure (leftHalf (shrinkBox tags b h) a c) < fuel := by
      have := boxMeasure_leftHalf_lt (shrinkBox tags b h) a c hc.1 hc.2
      omega
    have hmR : boxMeasure (rightHalf (shrinkBox tags b h) a c) < fuel := by
      have := boxMeasure_rightHalf_lt (shrinkBox tags b h) a c hc.1 hc.2
      omega
    have hL := ihf (leftHalf (shrinkBox tags b h) a c) hmL
    have hR := ihf (rightHalf (shrinkBox tags b h) a c) hmR
    obtain ⟨hcov, hdisj⟩ :=
      tagsIn_split tags (shrinkBox tags b h) a c hc.1 hc.2
    have hLle := leftHalf_BoxLE (shrinkBox tags b h) a c (le_of_lt hc.2)
    have hRle := rightHalf_BoxLE (shrinkBox tags b h) a c hc.1
    split
    next bl br heqL heqR =>
      rw [heqL] at hL
      rw [heqR] at hR
      split
      case isTrue hrec =>
        exact clusterOK_mono tags
          (clusterOK_recombine tags hL hR hLle hRle hcov) hshle hsheq
      case isFalse hrec =>
        have hok : ClusterOK tags (shrinkBox tags b h) ([bl] ++ [br]) :=
          clusterOK_append tags hL hR hLle hRle hdisj hcov
        exact clusterOK_mono tags (by simpa using hok) hshle hsheq
    next l r hno =>
      exact clusterOK_mono tags
        (clusterOK_append tags hL hR hLle hRle hdisj hcov) hshle hsheq

/-- Every clustering result is sound: the output boxes lie inside the
input box, cover exactly its tagged cells, and are pairwise
tag-disjoint. -/
theorem cluster_clusterOK {d : ℕ} (efficiency_tol combine_tol : ℚ)
    (max_box_size min_box : Fin d → ℤ)
    (cutter : BRBox d → Finset (Cell d) → Fin d × ℤ)
    (tags : Finset (Cell d)) (b : BRBox d) :
    ClusterOK tags b
      (cluster efficiency_tol combine_tol max_box_size min_box cutter tags b) :=
  clusterFuel_clusterOK efficiency_tol combine_tol max_box_size min_box cutter
    tags (boxMeasure b + 1) b (Nat.lt_succ_self _)

/-! ## Theorems for claims C3, C4, C9, C10 -/

/-- C3: for every value `v` of the `box_acceptance` state,
`boxAccepted()` holds iff the value is nonnegative and odd,
`boxRejected()` holds iff it is nonnegative and even, and
`boxHasNoTag()` holds iff the value is −1; hence the three predicates
are pairwise mutually exclusive. -/
theorem boxAcceptance_parity_characterisation :
    ∀ v : BoxAcceptance,
      (boxAccepted v = true ↔ (0 ≤ v.toInt ∧ v.toInt % 2 = 1)) ∧
      (boxRejected v = true ↔ (0 ≤ v.toInt ∧ v.toInt % 2 = 0)) ∧
      (boxHasNoTag v = true ↔ v.toInt = -1) ∧
      ¬(boxAccepted v = true ∧ boxRejected v = true) ∧
      ¬(boxAccepted v = true ∧ boxHasNoTag v = true) ∧
      ¬(boxRejected v = true ∧ boxHasNoTag v = true) := by
  decide

/-- C4 counterexample: the tree degree does not grow by 1 per doubling
(octave) of the group size.  Both 8 and 16 map to degree 3, and size 2
still maps to the starting degree 2 rather than 3. -/
theorem computeCommunicationTreeDegree_not_per_doubling :
    computeCommunicationTreeDegree 16 = computeCommunicationTreeDegree 8 ∧
    computeCommunicationTreeDegree 16 ≠ computeCommunicationTreeDegree 8 + 1 ∧
    computeCommunicationTreeDegree 2 = 2 := by
  refine ⟨?_, ?_, ?_⟩ <;>
    simp [computeCommunicationTreeDegree, shiftLoopCount]

/-- C4 amended: the communication tree degree starts at 2 and increases
by 1 per additional factor of eight of the group size, i.e. for every
group size `n ≥ 1` it equals `2 + Nat.log 8 n`. -/
theorem computeCommunicationTreeDegree_eq_two_add_log8 (n : ℕ) (h : 1 ≤ n) :
    computeCommunicationTreeDegree n = 2 + Nat.log 8 n := by
  unfold computeCommunicationTreeDegree
  rw [shiftLoopCount_div_eight n h]

/-- Witness for the amended C4 at group size 9. -/
theorem computeCommunicationTreeDegree_eq_two_add_log8_witness :
    computeCommunicationTreeDegree 9 = 2 + Nat.log 8 9 :=
  computeCommunicationTreeDegree_eq_two_add_log8 9 (by norm_num)

/-- C9: `getAvgNumberOfCont` never divides by zero: with a nonnegative
completed-node counter, it returns 0 when the counter is zero and the
exact quotient otherwise. -/
theorem getAvgNumberOfCont_no_div_by_zero (c : ContCounters) :
    (c.d_num_nodes_completed = 0 → getAvgNumberOfCont c = 0) ∧
    (0 < c.d_num_nodes_completed →
      getAvgNumberOfCont c =
        (c.d_num_conts_to_complete : ℚ) / (c.d_num_nodes_completed : ℚ)) := by
  constructor
  · intro h
    simp [getAvgNumberOfCont, h]
  · intro h
    simp [getAvgNumberOfCont, h]

/-- Witness for C9 at concrete counter values. -/
theorem getAvgNumberOfCont_no_div_by_zero_witness :
    getAvgNumberOfCont ⟨10, 0⟩ = 0 ∧ getAvgNumberOfCont ⟨10, 4⟩ = 10 / 4 :=
  ⟨(getAvgNumberOfCont_no_div_by_zero ⟨10, 0⟩).1 rfl,
   (getAvgNumberOfCont_no_div_by_zero ⟨10, 4⟩).2 (by norm_num)⟩

/-- C10: when the participating group has exactly one rank,
`gatherGroupingCriteria_check` returns true immediately and leaves the
communication-group state untouched (no `checkGather` advance). -/
theorem gatherGroupingCriteria_check_singleton {γ : Type}
    (checkGather : γ → γ) (isDone : γ → Bool) (d_group : List ℤ) (comm : γ)
    (h : d_group.length = 1) :
    gatherGroupingCriteria_check checkGather isDone d_group comm = (true, comm) := by
  simp [gatherGroupingCriteria_check, h]

/-- Witness for C10: a single-rank group with a communication state
that `checkGather` would visibly change, left unchanged. -/
theorem gatherGroupingCriteria_check_singleton_witness :
    gatherGroupingCriteria_check (fun n : ℕ => n + 1) (fun _ => false) [5] 0 =
      (true, 0) :=
  gatherGroupingCriteria_check_singleton (fun n : ℕ => n + 1) (fun _ => false)
    [5] 0 rfl

/-! ## Theorems for claims C1, C2 -/

/-- C1: tag conservation.  For any tag set lying in the root bounding
box, any thresholds and any cut-selection procedure, the per-box tag
counts of the clustering output sum to the total number of tagged
cells. -/
theorem cluster_tag_conservation {d : ℕ} (efficiency_tol combine_tol : ℚ)
    (max_box_size min_box : Fin d → ℤ)
    (cutter : BRBox d → Finset (Cell d) → Fin d × ℤ)
    (tags : Finset (Cell d)) (b : BRBox d)
    (hall : ∀ x ∈ tags, memBox x b) :
    ((cluster efficiency_tol combine_tol max_box_size min_box cutter tags
        b).map fun bx => (tagsIn tags bx).card).sum = tags.card := by
  obtain ⟨_, hun, hpw⟩ := cluster_clusterOK efficiency_tol combine_tol
    max_box_size min_box cutter tags b
  rw [sum_card_tagsIn tags _ hpw, hun, tagsIn, Finset.filter_eq_self.mpr hall]

/-- Witness for C1: a single tagged cell in a unit root box. -/
theorem cluster_tag_conservation_witness :
    (∀ x ∈ ({![0]} : Finset (Cell 1)), memBox x (⟨![0], ![0]⟩ : BRBox 1)) ∧
    ((cluster 1 0 ![4] ![1] (fun _ _ => (0, 0)) {![0]}
        (⟨![0], ![0]⟩ : BRBox 1)).map
      fun bx => (tagsIn {![0]} bx).card).sum =
      ({![0]} : Finset (Cell 1)).card :=
  ⟨by decide,
   cluster_tag_conservation 1 0 ![4] ![1] (fun _ _ => (0, 0)) {![0]}
     (⟨![0], ![0]⟩ : BRBox 1) (by decide)⟩

/-- C2 counterexample: acceptance is not equivalent to "efficient and
within `max_box_size`".  A box of 4 cells holding one tag
(efficiency 1/4) fails the efficiency tolerance 1/2, yet is accepted
because it is already at the minimum box size. -/
theorem acceptOrSplitBox_counterexample :
    acceptOrSplitBox 1 (⟨![0], ![3]⟩ : BRBox 1) (1 / 2) ![10] ![4] = true ∧
    ¬((1 / 2 : ℚ) ≤ boxEfficiency 1 (⟨![0], ![3]⟩ : BRBox 1) ∧
      ∀ i, numberCells (⟨![0], ![3]⟩ : BRBox 1) i ≤ (![10] : Fin 1 → ℤ) i) := by
  constructor
  · have hmin : boxAtMinSize (⟨![0], ![3]⟩ : BRBox 1) ![4] = true := by decide
    rw [acceptOrSplitBox, hmin, Bool.or_true]
  · intro hcl
    have := hcl.1
    rw [boxEfficiency] at this
    norm_num [numberCells, Fin.prod_univ_one] at this

/-- C2 amended: for `num_tags > 0`, the box is accepted iff
(`num_tags / box.volume ≥ efficiency_tol` and the box fits inside
`max_box_size` in every dimension) or the box is already at the
minimum box size in every dimension (the spec's degenerate case). -/
theorem acceptOrSplitBox_characterisation {d : ℕ} (numTags : ℕ)
    (b : BRBox d) (efficiency_tol : ℚ) (max_box_size min_box : Fin d → ℤ)
    (hpos : 0 < numTags) :
    acceptOrSplitBox numTags b efficiency_tol max_box_size min_box = true ↔
      ((efficiency_tol ≤ boxEfficiency numTags b ∧
        ∀ i, numberCells b i ≤ max_box_size i) ∨
       (∀ i, numberCells b i ≤ min_box i)) := by
  simp [acceptOrSplitBox, boxFitsInMaxSize, boxAtMinSize]

/-- Witness for the amended C2 at a unit box with one tag. -/
theorem acceptOrSplitBox_characterisation_witness :
    acceptOrSplitBox 1 (⟨![0], ![0]⟩ : BRBox 1) 1 ![1] ![1] = true ↔
      ((1 ≤ boxEfficiency 1 (⟨![0], ![0]⟩ : BRBox 1) ∧
        ∀ i, numberCells (⟨![0], ![0]⟩ : BRBox 1) i ≤ (![1] : Fin 1 → ℤ) i) ∨
       (∀ i, numberCells (⟨![0], ![0]⟩ : BRBox 1) i ≤ (![1] : Fin 1 → ℤ) i)) :=
  acceptOrSplitBox_characterisation 1 (⟨![0], ![0]⟩ : BRBox 1) 1 ![1] ![1]
    (by norm_num)

/-! ## Theorems for claim C5 -/

/-- Permuting a list permutes its `flatMap`. -/
theorem perm_flatMap {α β : Type} (f : α → List β) {l₁ l₂ : List α}
    (hp : List.Perm l₁ l₂) : List.Perm (l₁.flatMap f) (l₂.flatMap f) := by
  induction hp with
  | nil => exact List.Perm.refl _
  | cons x hp ih =>
    simp only [List.flatMap_cons]
    exact List.Perm.append_left _ ih
  | swap x y l =>
    simp only [List.flatMap_cons]
    rw [← List.append_assoc, ← List.append_assoc]
    exact List.Perm.append_right _ List.perm_append_comm
  | trans h₁ h₂ ih₁ ih₂ => exact ih₁.trans ih₂

/-- C5: the multiset of output boxes does not depend on the advance
mode or on the run's completion order: any two runs under any two
modes, each processing the roots in an order the mode permits, produce
identical accepted-box collections. -/
theorem runClustering_mode_invariant {d : ℕ} (efficiency_tol combine_tol : ℚ)
    (max_box_size min_box : Fin d → ℤ)
    (cutter : BRBox d → Finset (Cell d) → Fin d × ℤ)
    (tags : Finset (Cell d)) (roots o₁ o₂ : List (BRBox d))
    (m₁ m₂ : AlgoAdvanceMode)
    (h₁ : ValidOrder m₁ roots o₁) (h₂ : ValidOrder m₂ roots o₂) :
    runClustering efficiency_tol combine_tol max_box_size min_box cutter tags
        o₁ =
      runClustering efficiency_tol combine_tol max_box_size min_box cutter
        tags o₂ := by
  have perm_of : ∀ (m : AlgoAdvanceMode) (o : List (BRBox d)),
      ValidOrder m roots o → List.Perm o roots := by
    intro m o hv
    cases m with
    | SYNCHRONOUS =>
      simp only [ValidOrder] at hv
      subst hv
      exact List.Perm.refl _
    | ADVANCE_ANY => exact hv
    | ADVANCE_SOME => exact hv
  have hp : List.Perm o₁ o₂ := (perm_of m₁ o₁ h₁).trans (perm_of m₂ o₂ h₂).symm
  unfold runClustering
  exact Multiset.coe_eq_coe.mpr (perm_flatMap _ hp)

/-- Witness for C5: two roots processed in queue order under
`SYNCHRONOUS` and in swapped order under `ADVANCE_ANY`. -/
theorem runClustering_mode_invariant_witness :
    runClustering 1 0 ![4] ![1] (fun _ _ => (0, 0)) {![0]}
        [⟨![0], ![0]⟩, ⟨![5], ![5]⟩] =
      runClustering 1 0 ![4] ![1] (fun _ _ => (0, 0)) {![0]}
        [⟨![5], ![5]⟩, ⟨![0], ![0]⟩] :=
  runClustering_mode_invariant 1 0 ![4] ![1] (fun _ _ => (0, 0)) {![0]}
    [⟨![0], ![0]⟩, ⟨![5], ![5]⟩]
    [⟨![0], ![0]⟩, ⟨![5], ![5]⟩]
    [⟨![5], ![5]⟩, ⟨![0], ![0]⟩]
    .SYNCHRONOUS .ADVANCE_ANY rfl
    (List.Perm.swap (⟨![0], ![0]⟩ : BRBox 1) ⟨![5], ![5]⟩ [])

/-! ## Theorems for claim C6 -/

/-- C6 counterexample: the `wait_phase` state space is not exactly the
eight claimed values.  The C++ enum holds ten values; `for_data_only`
(nodes kept only to store data, never launched) and `deallocated` (set
by the destructor) are both held outside `continueAlgorithm()` and are
not among the eight. -/
theorem waitPhase_not_exactly_eight :
    WaitPhase.for_data_only ∉ claimPhases ∧
    WaitPhase.deallocated ∉ claimPhases ∧
    (Finset.univ : Finset WaitPhase).card = 10 := by
  decide

/-- C6 amended: an executed node's phase is one of the eight claimed
values, and each `continueAlgorithm` step keeps it among them and
moves it monotonically forward through the enum order (staying put
only while a collective is incomplete). -/
theorem waitPhaseStep_monotone :
    ∀ (p : WaitPhase) (e : StepEvent), p ∈ claimPhases →
      waitPhaseStep p e ∈ claimPhases ∧
      phaseIndex p ≤ phaseIndex (waitPhaseStep p e) := by
  decide

/-- Witness for the amended C6: launching a node. -/
theorem waitPhaseStep_monotone_witness :
    waitPhaseStep .to_be_launched ⟨true, false, false, false, false⟩ ∈
        claimPhases ∧
    phaseIndex .to_be_launched ≤
      phaseIndex
        (waitPhaseStep .to_be_launched ⟨true, false, false, false, false⟩) :=
  waitPhaseStep_monotone .to_be_launched ⟨true, false, false, false, false⟩
    (by decide)

/-! ## Theorem for claim C7 -/

/-- C7: the gathered grouping-criteria buffer carries exactly four
integers per rank of the group, so its size is exactly 4 times the
group size. -/
theorem gatheredGroupingCriteria_length (overlapL overlapR nodeCount : ℤ → ℤ)
    (group : List ℤ) :
    (gatheredGroupingCriteria overlapL overlapR nodeCount group).length =
      4 * group.length := by
  induction group with
  | nil => rfl
  | cons r rs ih =>
    simp only [gatheredGroupingCriteria, List.flatMap_cons,
      List.length_append, groupingCriteriaQuad, List.length_cons,
      List.length_nil, List.length_singleton] at *
    omega

/-! ## Theorems for claim C8 -/

/-- C8 counterexample: on overflow the child position is not saturated
to a large-magnitude sentinel: the left child gets −1 and the right
child −2, both of magnitude below 2^16. -/
theorem childPos_overflow_counterexample :
    childPos (2 ^ 30) 0 = -1 ∧ childPos (2 ^ 30) 1 = -2 ∧
    ¬(2 ^ 16 ≤ (childPos (2 ^ 30) 0).natAbs) := by
  norm_num [childPos, intMax]

/-- C8 amended: the left child's position is `2 * p` and the right
child's `2 * p + 1`; when the child position exceeds the integer
range the position is set to −1 for a left child and −2 for a right
child. -/
theorem childPos_spec (p c : ℤ) :
    (2 * p + c ≤ intMax → childPos p c = 2 * p + c) ∧
    (intMax < 2 * p + c → childPos p c = -1 - c) := by
  constructor
  · intro h
    rw [childPos, if_pos h]
  · intro h
    rw [childPos, if_neg (by omega)]

/-- Witness for the amended C8: an in-range left child and an
overflowing right child. -/
theorem childPos_spec_witness :
    childPos 3 0 = 2 * 3 + 0 ∧ childPos (2 ^ 30) 1 = -1 - 1 :=
  ⟨(childPos_spec 3 0).1 (by norm_num [intMax]),
   (childPos_spec (2 ^ 30) 1).2 (by norm_num [intMax])⟩

end SAMRAI
